import Mathlib

/-!
Verification development for the `elden-ring-torrent` peer-to-peer file
sharing system.  The Python sources under `peer/` are shallowly embedded as
Lean functions: the consistent-hash ring (`hashing.py`), the local object
store (`storage.py`), the search / repair / leave logic of the peers
(`naive.py`, `semantic.py`, `base.py`) and the request surface (`api.py`).
Cryptographic hash functions (MD5 used for ring positions, SHA-1 used for
storage and routing keys) are kept abstract as function parameters: no claim
below depends on a concrete digest value, only on which key is hashed and
how the result is used.
-/

namespace ERT

/-! ## Consistent hash ring (`peer/hashing.py`) -/

/-- State of `ConsistentHashRing`: `ring` models the Python dict `self.ring`
as an association list from virtual position to physical node, `sorted_keys`
models `self.sorted_keys`, `hashFn` models `self._hash` (MD5 of the key
interpreted as an integer), kept abstract. -/
structure ConsistentHashRing where
  replicas : Nat
  ring : List (Nat × String)
  sorted_keys : List Nat
  hashFn : String → Nat

/-- Python dict lookup `d[k]` on the association-list model; `""` stands for
the `KeyError` case, which cannot arise under the class invariant. -/
def dictGet (d : List (Nat × String)) (k : Nat) : String :=
  match d.find? (fun e => e.1 == k) with
  | some e => e.2
  | none => ""

/-- Python dict assignment `d[k] = v`: replaces an existing binding for `k`
in place, otherwise appends a new one. -/
def dictSet (d : List (Nat × String)) (k : Nat) (v : String) : List (Nat × String) :=
  match d with
  | [] => [(k, v)]
  | e :: rest => if e.1 == k then (k, v) :: rest else e :: dictSet rest k v

/-- Functional translation of `bisect.bisect(sorted_keys, v)` on a sorted
list: the insertion point to the right of `v`, i.e. the length of the prefix
of entries `≤ v`. -/
def bisectRight (keys : List Nat) (v : Nat) : Nat :=
  (keys.takeWhile (fun k => k ≤ v)).length

/-- Functional translation of `bisect.insort(sorted_keys, k)`: sorted
insertion, to the right of equal entries. -/
def insort (k : Nat) : List Nat → List Nat
  | [] => [k]
  | x :: xs => if k < x then k :: x :: xs else x :: insort k xs

/-- Embedding of `ConsistentHashRing.add_node`: inserts `replicas` virtual
positions, one per hash of `f"{node}#{i}"`. -/
def ConsistentHashRing.addNode (r : ConsistentHashRing) (node : String) : ConsistentHashRing :=
  (List.range r.replicas).foldl
    (fun r i =>
      let key_hash := r.hashFn (node ++ "#" ++ toString i)
      { r with
        ring := dictSet r.ring key_hash node
        sorted_keys := insort key_hash r.sorted_keys })
    r

/-- Embedding of the `ConsistentHashRing(nodes, replicas)` constructor. -/
def mkRing (hashFn : String → Nat) (replicas : Nat) (nodes : List String) :
    ConsistentHashRing :=
  nodes.foldl ConsistentHashRing.addNode
    { replicas := replicas, ring := [], sorted_keys := [], hashFn := hashFn }

/-- Embedding of `ConsistentHashRing.get_node`. -/
def ConsistentHashRing.getNode (r : ConsistentHashRing) (item_key : String) : Option String :=
  if r.ring = [] then none
  else
    let hash_val := r.hashFn item_key
    let idx := bisectRight r.sorted_keys hash_val
    let idx := if idx = r.sorted_keys.length then 0 else idx
    some (dictGet r.ring (r.sorted_keys.getD idx 0))

/-- Loop of `ConsistentHashRing.get_successors`: `fuel` plays the role of
`max_attempts - attempts`, `acc` is `unique_nodes` (the Python `seen` set
always holds the same elements as `unique_nodes`). -/
def succLoop (r : ConsistentHashRing) (count : Nat) : Nat → Nat → List String → List String
  | _, 0, acc => acc
  | idx, fuel + 1, acc =>
    if acc.length < count then
      let i := if idx = r.sorted_keys.length then 0 else idx
      let node := dictGet r.ring (r.sorted_keys.getD i 0)
      succLoop r count (i + 1) fuel (if node ∈ acc then acc else acc ++ [node])
    else acc

/-- Embedding of `ConsistentHashRing.get_successors`. -/
def ConsistentHashRing.getSuccessors (r : ConsistentHashRing) (item_key : String)
    (count : Nat) : List String :=
  if r.ring = [] then []
  else
    let hash_val := r.hashFn item_key
    let idx := bisectRight r.sorted_keys hash_val
    succLoop r count idx (r.sorted_keys.length * 2) []

/-- Physical node stored at each virtual position, in `sorted_keys` order. -/
def ringNodes (r : ConsistentHashRing) : List String :=
  r.sorted_keys.map (fun k => dictGet r.ring k)

/-- Bisect index of a hash value, wrapped to `0` past the end of the ring. -/
def bisectWrapped (r : ConsistentHashRing) (hash_val : Nat) : Nat :=
  let idx := bisectRight r.sorted_keys hash_val
  if idx = r.sorted_keys.length then 0 else idx

/-- Rotation of the virtual-position node list starting at index `i`. -/
def rotAt (r : ConsistentHashRing) (i : Nat) : List String :=
  (ringNodes r).drop i ++ (ringNodes r).take i

/-- First-occurrence deduplication, folded over an accumulator: exactly the
way `get_successors` grows `unique_nodes`. -/
def dedupAcc (acc : List String) : List String → List String
  | [] => acc
  | x :: xs => dedupAcc (if x ∈ acc then acc else acc ++ [x]) xs

/-- Truncated first-occurrence deduplication: stops adding once `count`
distinct values have been collected. -/
def stepDedup (count : Nat) (acc : List String) : List String → List String
  | [] => acc
  | x :: xs =>
    if acc.length < count then stepDedup count (if x ∈ acc then acc else acc ++ [x]) xs
    else acc

/-- Sequence of physical nodes visited by the successor scan starting at
index `idx` for `fuel` iterations, with wrap-around. -/
def nodeSeq (r : ConsistentHashRing) : Nat → Nat → List String
  | _, 0 => []
  | idx, fuel + 1 =>
    let i := if idx = r.sorted_keys.length then 0 else idx
    dictGet r.ring (r.sorted_keys.getD i 0) :: nodeSeq r (i + 1) fuel

/-- Number of distinct physical nodes present in the ring dictionary. -/
def distinctNodeCount (r : ConsistentHashRing) : Nat :=
  (r.ring.map Prod.snd).toFinset.card

/-- Well-formedness maintained by `add_node` / `remove_node`: the virtual
positions are strictly sorted and are exactly the keys of the dictionary. -/
def WFRing (r : ConsistentHashRing) : Prop :=
  List.Pairwise (· < ·) r.sorted_keys ∧ r.sorted_keys.Perm (r.ring.map Prod.fst)

/-! ## Object store (`peer/storage.py`) -/

/-- Chunk size used by `split_file`: 1 MiB. -/
def CHUNK_SIZE : Nat := 1024 * 1024

/-- Read loop of `split_file` with explicit fuel (any fuel above the number
of reads gives the same value, so `data.length + 1` is enough: every
non-final read consumes at least one byte). -/
def splitChunksAux : Nat → List Nat → List (List Nat)
  | 0, _ => []
  | fuel + 1, data =>
    if data = [] then []
    else data.take CHUNK_SIZE :: splitChunksAux fuel (data.drop CHUNK_SIZE)

/-- Successive `f.read(CHUNK_SIZE)` blocks of a file, modelled as slices of
its byte list. -/
def splitChunks (data : List Nat) : List (List Nat) :=
  splitChunksAux (data.length + 1) data

/-- Embedding of `Storage.split_file`: the chunk list with sequential
indices and SHA-1 hashes.  `sha1` is the abstract SHA-1 hex digest of a byte
string. -/
def split_file (sha1 : List Nat → String) (data : List Nat) :
    List (Nat × String × List Nat) :=
  (splitChunks data).enum.map (fun p => (p.1, sha1 p.2, p.2))

/-- Chunk descriptor as stored inside a manifest. -/
structure MChunk where
  index : Nat
  hash : String
  peers : List String
deriving DecidableEq

/-- Stable insertion of a chunk descriptor into a list sorted by `index`
(after any equal indices), used to model Python's stable `sorted`. -/
def insertByIndex (c : MChunk) : List MChunk → List MChunk
  | [] => [c]
  | x :: xs => if c.index < x.index then c :: x :: xs else x :: insertByIndex c xs

/-- Stable sort by chunk `index`, modelling
`sorted(manifest["chunks"], key=lambda c: c.get("index", 0))`. -/
def sortByIndex (l : List MChunk) : List MChunk :=
  l.foldr insertByIndex []

/-- Pass of `Storage.rebuild_file` over the index-ordered chunk descriptors:
for each chunk, a missing hash raises `ValueError`, a chunk file absent from
the local store raises `FileNotFoundError`, a SHA-1 mismatch raises
`IOError`; otherwise the chunk bytes are appended to the output. -/
def rebuildLoop (sha1 : List Nat → String) (store : String → Option (List Nat)) :
    List MChunk → Except String (List Nat)
  | [] => Except.ok []
  | c :: rest =>
    if c.hash = "" then Except.error "ValueError"
    else
      match store c.hash with
      | none => Except.error "FileNotFoundError"
      | some data =>
        if sha1 data ≠ c.hash then Except.error "IOError"
        else (rebuildLoop sha1 store rest).map (fun tail => data ++ tail)

/-- Embedding of `Storage.rebuild_file`: sorts the manifest's chunks by
`index`, then verifies and concatenates them; the returned byte list is the
content written to `output_path`. -/
def rebuild_file (sha1 : List Nat → String) (store : String → Option (List Nat))
    (chunks : List MChunk) : Except String (List Nat) :=
  rebuildLoop sha1 store (sortByIndex chunks)

/-- Entry of a secondary-index shard (`manifest_summary` in the source). -/
structure IndexEntry where
  filename : String
  host : String
  metadata : List (String × String)
deriving DecidableEq

/-- Embedding of `Storage.save_index_entry` acting on the entry list of one
shard file: an entry whose `filename` already appears makes the call return
without writing; otherwise the entry is appended. -/
def save_index_entry (entries : List IndexEntry) (e : IndexEntry) : List IndexEntry :=
  match entries with
  | [] => [e]
  | x :: xs => if x.filename == e.filename then x :: xs else x :: save_index_entry xs e

/-! ## Manifests and the per-node manifest store -/

/-- File manifest.  `updated_at` is optional because manifests produced by
the Semantic upload path carry none; `placement_key` is optional because
only the Semantic upload path sets it. -/
structure Manifest where
  filename : String
  chunks : List MChunk
  metadata : List (String × String)
  updated_at : Option Nat
  placement_key : Option String
deriving DecidableEq

/-- Manifest files of one node's data directory, keyed by
`sha1(filename)` (the storage hash), as an association list. -/
def storeGet (store : List (String × Manifest)) (k : String) : Option Manifest :=
  (store.find? (fun e => e.1 == k)).map Prod.snd

/-- Overwrite-or-create of a manifest file, keyed by its storage hash. -/
def storeSet (store : List (String × Manifest)) (k : String) (m : Manifest) :
    List (String × Manifest) :=
  match store with
  | [] => [(k, m)]
  | e :: rest => if e.1 == k then (k, m) :: rest else e :: storeSet rest k m

/-- Embedding of `Storage.save_manifest` (also the body of the
`/store_manifest` endpoint in `api.py`): writes the manifest under the SHA-1
of its filename, unconditionally replacing any previous version. -/
def save_manifest (sha1 : String → String) (store : List (String × Manifest))
    (m : Manifest) : List (String × Manifest) :=
  storeSet store (sha1 m.filename) m

/-! ## Local search (`naive.py _search_local_storage`, `api.py search_local`) -/

/-- Lookup `metadata.get(k, "")` on the stringified metadata map. -/
def metaGet (md : List (String × String)) (k : String) : String :=
  ((md.find? (fun e => e.1 == k)).map Prod.snd).getD ""

/-- ASCII model of Python `str.lower()`. -/
def charLower (c : Char) : Char :=
  if 65 ≤ c.toNat ∧ c.toNat ≤ 90 then Char.ofNat (c.toNat + 32) else c

/-- Lowercasing a string, character-wise. -/
def lowerStr (s : String) : String :=
  String.mk (s.data.map charLower)

/-- Search result entry as built by the local search paths. -/
structure SearchResult where
  filename : String
  metadata : List (String × String)
  host : String
  updated_at : Nat
  manifest : Manifest
deriving DecidableEq

/-- Per-pair match loop shared by both local matchers: the key `filename`
compares case-insensitively against the manifest's filename, every other key
compares case-insensitively against the stringified metadata value; the
first failing pair breaks the loop. -/
def matchLoop (m : Manifest) : List (String × String) → Bool
  | [] => true
  | (k, v) :: rest =>
    if k == "filename" then
      if lowerStr m.filename == lowerStr v then matchLoop m rest else false
    else
      if lowerStr (metaGet m.metadata k) == lowerStr v then matchLoop m rest else false

/-- Result entry built for a matching manifest. -/
def mkResult (selfId : String) (m : Manifest) : SearchResult :=
  { filename := m.filename, metadata := m.metadata, host := selfId,
    updated_at := m.updated_at.getD 0, manifest := m }

/-- Embedding of `NaivePeer._search_local_storage`: appends one result entry
per matching local manifest, in order. -/
def search_local_storage (selfId : String) (manifests : List Manifest)
    (query : List (String × String)) : List SearchResult :=
  match manifests with
  | [] => []
  | m :: ms =>
    if matchLoop m query then mkResult selfId m :: search_local_storage selfId ms query
    else search_local_storage selfId ms query

/-- Claim-side matcher, written from the specification's words: a manifest
satisfies the query iff every pair matches (case-insensitive string
equality; key `filename` against the filename, any other key against the
stringified metadata value). -/
def specMatches (m : Manifest) (query : List (String × String)) : Bool :=
  query.all (fun p =>
    if p.1 = "filename" then lowerStr m.filename == lowerStr p.2
    else lowerStr (metaGet m.metadata p.1) == lowerStr p.2)

/-- Embedding of the `/search_local` endpoint in `api.py`.  In the source
the `if match:` block is indented outside the `for m in local_manifests:`
loop, so after the loop ends only the variables of the last iteration are
live: the endpoint appends at most one entry, for the last listed manifest,
and raises `NameError` (assert-free crash) when the manifest list is empty
because `match` was never assigned. -/
def search_local_api (selfId : String) (manifests : List Manifest)
    (query : List (String × String)) : Option (List SearchResult) :=
  match manifests.getLast? with
  | none => none
  | some m => some (if matchLoop m query then [mkResult selfId m] else [])

/-! ## LWW conflict resolution (`naive.py _resolve_conflicts`) -/

/-- Python's `grouped` dict build: append the item to its filename's group,
creating the group on first sight (dict preserves insertion order). -/
def groupAdd (g : List (String × List SearchResult)) (it : SearchResult) :
    List (String × List SearchResult) :=
  match g with
  | [] => [(it.filename, [it])]
  | e :: rest =>
    if e.1 == it.filename then (e.1, e.2 ++ [it]) :: rest else e :: groupAdd rest it

/-- Grouping of raw results by filename, in first-occurrence order. -/
def groupByFilename (rs : List SearchResult) : List (String × List SearchResult) :=
  rs.foldl groupAdd []

/-- Lookup of a filename's group in the grouping association list. -/
def groupFind (g : List (String × List SearchResult)) (fname : String) :
    Option (List SearchResult) :=
  (g.find? (fun e => e.1 == fname)).map Prod.snd

/-- Python `max(versions, key=f)` over a non-empty list: keeps the first
element among ties, replaces only on a strictly larger key. -/
def pyMaxBy (f : SearchResult → Nat) (x : SearchResult) (xs : List SearchResult) :
    SearchResult :=
  xs.foldl (fun best y => if f best < f y then y else best) x

/-- Placeholder for the unreachable empty-group branch. -/
def emptyResult : SearchResult :=
  { filename := "", metadata := [], host := "", updated_at := 0,
    manifest := { filename := "", chunks := [], metadata := [],
                  updated_at := none, placement_key := none } }

/-- Embedding of `NaivePeer._resolve_conflicts` (return value only; the
read-repair sends are fire-and-forget side effects): one winner per filename
group, chosen by highest `updated_at` (`x.get("updated_at", 0)`). -/
def resolve_conflicts (rs : List SearchResult) : List SearchResult :=
  (groupByFilename rs).map (fun g =>
    match g.2 with
    | [] => emptyResult
    | x :: xs => pyMaxBy (fun r => r.updated_at) x xs)

/-! ## Anti-entropy repair (`naive.py _repair_manifests`) and placement keys -/

/-- Embedding of `NaivePeer._get_placement_key`: always the filename. -/
def naive_get_placement_key (m : Manifest) : String :=
  m.filename

/-- Embedding of `SemanticPeer._get_placement_key`: the manifest's
`placement_key` when present, the filename otherwise. -/
def semantic_get_placement_key (m : Manifest) : String :=
  m.placement_key.getD m.filename

/-- Embedding of `NaivePeer._repair_manifests`, parametric in the strategy's
`_get_placement_key`.  The return value is the list of existence checks the
pass issues: one `(replica node, storage hash)` pair per `check_existence`
call (`_ensure_replica_has_file`), in loop order.  For each local manifest
the storage hash is `sha1(filename)`, the routing hash is
`sha1(placement key)`; the node is primary iff `ring.get_node` of the
routing hash returns itself, and the replicas scanned are
`ring.get_successors(routing hash, 2)` minus itself. -/
def repair_manifests (sha1 : String → String) (pk : Manifest → String)
    (r : ConsistentHashRing) (selfId : String) : List Manifest → List (String × String)
  | [] => []
  | m :: ms =>
    let manifest_hash := sha1 m.filename
    let placement_hash := sha1 (pk m)
    let checks :=
      if r.getNode placement_hash = some selfId then
        ((r.getSuccessors placement_hash 2).filter (fun rep => rep ≠ selfId)).map
          (fun rep => (rep, manifest_hash))
      else []
    checks ++ repair_manifests sha1 pk r selfId ms

/-! ## Graceful leave (`base.py BasePeer.graceful_shutdown`) -/

/-- Return value of the graceful-leave routine, extended with the observable
side effects: `transfers` records each successful `store_manifest` post as
`(filename, target node)`, `removed` the filenames whose local manifest copy
was deleted afterwards. -/
structure ShutdownResult where
  status : String
  manifests_moved : Nat
  transfers : List (String × String)
  removed : List String
deriving DecidableEq

/-- Manifest-redistribution loop of `graceful_shutdown`.  `ok target` models
whether the `store_manifest` post to `target` succeeds; on failure the
manifest is neither counted nor removed. -/
def shutdownLoop (ring : ConsistentHashRing) (sha1 : String → String)
    (ok : String → Bool) : List Manifest → Nat × List (String × String) × List String
  | [] => (0, [], [])
  | m :: ms =>
    let h_name := sha1 m.filename
    let target := (ring.getNode h_name).getD ""
    let rest := shutdownLoop ring sha1 ok ms
    if ok target then
      (rest.1 + 1, (m.filename, target) :: rest.2.1, m.filename :: rest.2.2)
    else rest

/-- Embedding of `BasePeer.graceful_shutdown`: builds a temporary ring from
`known_peers` minus itself (default 100 virtual replicas, ring hash `md5`),
sends every local manifest to the node of the temporary ring responsible for
`sha1(filename)`, removes each successfully transferred local copy, and
reports `completed` with the number moved. -/
def graceful_shutdown (md5 : String → Nat) (sha1 : String → String)
    (ok : String → Bool) (selfId : String) (known_peers : List String)
    (manifests : List Manifest) : ShutdownResult :=
  let temp_peers := known_peers.filter (fun p => p ≠ selfId)
  if temp_peers = [] then
    { status := "isolated", manifests_moved := 0, transfers := [], removed := [] }
  else
    let temp_ring := mkRing md5 100 temp_peers
    let res := shutdownLoop temp_ring sha1 ok manifests
    { status := "completed", manifests_moved := res.1,
      transfers := res.2.1, removed := res.2.2 }

/-- Chunk descriptors of a manifest produced from a split (the `peers`
field plays no role in rebuilding). -/
def chunkRecords (sha1 : List Nat → String) (data : List Nat) : List MChunk :=
  (split_file sha1 data).map (fun c => { index := c.1, hash := c.2.1, peers := [] })

/-! ## Concrete instances used in counterexamples and witnesses -/

/-- Toy digest standing in for SHA-1 in concrete evaluations (the claims do
not depend on actual digest values, only on which key is hashed). -/
def sha1X (s : String) : String :=
  "H" ++ s

/-- Toy ring-position hash: the routing hash of `f.txt` lands at `5`,
before every virtual position of `ring3`. -/
def md5X (s : String) : Nat :=
  if s = "Hf.txt" then 5 else 999

/-- Three-node ring with one virtual position per node; `peer1:5000` is
primary for the routing hash of `f.txt`. -/
def ring3 : ConsistentHashRing :=
  { replicas := 1
    ring := [(10, "peer1:5000"), (20, "peer2:5000"), (30, "peer3:5000")]
    sorted_keys := [10, 20, 30]
    hashFn := md5X }

/-- Manifest for `f.txt` without placement key, `updated_at = 5`. -/
def mFile : Manifest :=
  { filename := "f.txt", chunks := [], metadata := [], updated_at := some 5,
    placement_key := none }

/-- Manifest for `f.txt` with the older timestamp `3`. -/
def mFileOld : Manifest :=
  { filename := "f.txt", chunks := [], metadata := [], updated_at := some 3,
    placement_key := none }

/-- Toy ring-position hash for the two-node temporary ring of the leave
counterexample: every virtual key of node `B` lands at `100`, every one of
node `C` at `200`; the storage hash of filename `f` lands at `50` (owner
`B`), the routing hash of placement key `g` at `150` (owner `C`). -/
def md5Y (s : String) : Nat :=
  match s.data with
  | ['H', 'g'] => 150
  | ['H', 'f'] => 50
  | 'B' :: _ => 100
  | _ => 200

/-- Semantically placed manifest: filename `f`, placement key `g`. -/
def mSem : Manifest :=
  { filename := "f", chunks := [], metadata := [("genre", "g")],
    updated_at := none, placement_key := some "g" }

/-- Manifest `a.txt` with metadata `genre = Action`. -/
def mMetaA : Manifest :=
  { filename := "a.txt", chunks := [], metadata := [("genre", "Action")],
    updated_at := some 1, placement_key := none }

/-- Manifest `b.txt` with metadata `genre = action`. -/
def mMetaB : Manifest :=
  { filename := "b.txt", chunks := [], metadata := [("genre", "action")],
    updated_at := some 2, placement_key := none }

/-- Toy digest of a byte string, injective on lengths. -/
def sha1L (l : List Nat) : String :=
  "h" ++ toString l.length

/-- Chunk store holding exactly the single chunk `[1, 2, 3]`. -/
def storeW (h : String) : Option (List Nat) :=
  if h = "h3" then some [1, 2, 3] else none

/-- Index entry for `a.txt` hosted on `peer1:5000`. -/
def ieA : IndexEntry :=
  { filename := "a.txt", host := "peer1:5000", metadata := [] }

/-- Index entry for `a.txt` hosted on `peer2:5000` (same filename as
`ieA`, different payload). -/
def ieA2 : IndexEntry :=
  { filename := "a.txt", host := "peer2:5000", metadata := [] }

/-- Index entry for `b.txt`. -/
def ieB : IndexEntry :=
  { filename := "b.txt", host := "peer1:5000", metadata := [] }

/-- Ring containing no nodes. -/
def ring0 : ConsistentHashRing :=
  { replicas := 1, ring := [], sorted_keys := [], hashFn := md5X }

/-! # Helper lemmas -/

theorem getLast?_cons_eq {α : Type} (m : α) (l : List α) :
    (m :: l).getLast? = some (l.getLast?.getD m) := by
  induction l generalizing m with
  | nil => rfl
  | cons x xs ih =>
    rw [List.getLast?_cons_cons, ih x]
    cases h : xs.getLast? <;> simp [h]

theorem storeGet_storeSet (s : List (String × Manifest)) (k k' : String) (m : Manifest) :
    storeGet (storeSet s k' m) k = if k = k' then some m else storeGet s k := by
  induction s with
  | nil =>
    simp only [storeSet, storeGet, List.find?]
    by_cases h : k = k'
    · have h1 : (k' == k) = true := by simp [h.symm]
      simp [h1, h]
    · have h1 : (k' == k) = false := by
        simp only [beq_eq_false_iff_ne, ne_eq]
        exact fun hk => h hk.symm
      simp [h1, h]
  | cons e s ih =>
    simp only [storeSet]
    by_cases he : e.1 = k'
    · have hbe : (e.1 == k') = true := by simp [he]
      simp only [hbe, if_true]
      by_cases h : k = k'
      · have h1 : (k' == k) = true := by simp [h.symm]
        simp [storeGet, List.find?, h1, h]
      · have h1 : (k' == k) = false := by
          simp only [beq_eq_false_iff_ne, ne_eq]
          exact fun hk => h hk.symm
        have h2 : (e.1 == k) = false := by
          simp only [beq_eq_false_iff_ne, ne_eq]
          intro hk
          exact h (by rw [← hk, he])
        simp [storeGet, List.find?, h1, h2, h]
    · have hbe : (e.1 == k') = false := by simp [he]
      simp only [hbe, Bool.false_eq_true, if_false]
      by_cases hek : e.1 = k
      · have h2 : (e.1 == k) = true := by simp [hek]
        have h : ¬k = k' := fun hk => he (hek.trans hk)
        simp [storeGet, List.find?, h2, h]
      · have h2 : (e.1 == k) = false := by simp [hek]
        simpa [storeGet, List.find?, h2] using ih

theorem mem_dedupAcc (a : String) (ys acc : List String) :
    a ∈ dedupAcc acc ys ↔ a ∈ acc ∨ a ∈ ys := by
  induction ys generalizing acc with
  | nil => simp [dedupAcc]
  | cons x xs ih =>
    by_cases hx : x ∈ acc
    · simp only [dedupAcc, hx, if_pos, ih]
      constructor
      · rintro (h | h)
        · exact Or.inl h
        · exact Or.inr (List.mem_cons_of_mem _ h)
      · rintro (h | h)
        · exact Or.inl h
        · rcases List.mem_cons.mp h with rfl | h
          · exact Or.inl hx
          · exact Or.inr h
    · simp only [dedupAcc, hx, if_neg, not_false_iff, ih, List.mem_append,
        List.mem_singleton, List.mem_cons]
      tauto

theorem nodup_dedupAcc (ys acc : List String) (h : acc.Nodup) :
    (dedupAcc acc ys).Nodup := by
  induction ys generalizing acc with
  | nil => exact h
  | cons x xs ih =>
    by_cases hx : x ∈ acc
    · simp only [dedupAcc, hx, if_pos]
      exact ih _ h
    · simp only [dedupAcc, hx, if_neg, not_false_iff]
      exact ih _ (by simp [List.nodup_append, h, hx])

theorem dedupAcc_extends (ys acc : List String) : acc <+: dedupAcc acc ys := by
  induction ys generalizing acc with
  | nil => exact List.prefix_rfl
  | cons x xs ih =>
    by_cases hx : x ∈ acc
    · simpa only [dedupAcc, hx, if_pos] using ih acc
    · simp only [dedupAcc, hx, if_neg, not_false_iff]
      exact (List.prefix_append acc [x]).trans (ih (acc ++ [x]))

theorem groupFind_groupAdd_self (g : List (String × List SearchResult))
    (it : SearchResult) :
    groupFind (groupAdd g it) it.filename
      = some ((groupFind g it.filename).getD [] ++ [it]) := by
  induction g with
  | nil => simp [groupAdd, groupFind, List.find?]
  | cons e rest ih =>
    by_cases he : e.1 = it.filename
    · have hbe : (e.1 == it.filename) = true := by simp [he]
      simp [groupAdd, groupFind, List.find?, hbe]
    · have hbe : (e.1 == it.filename) = false := by simp [he]
      simpa [groupAdd, groupFind, List.find?, hbe] using ih

theorem groupFind_groupAdd_ne (g : List (String × List SearchResult))
    (it : SearchResult) (fname : String) (h : it.filename ≠ fname) :
    groupFind (groupAdd g it) fname = groupFind g fname := by
  have hb0 : (it.filename == fname) = false := by simp [h]
  induction g with
  | nil => simp [groupAdd, groupFind, List.find?, hb0]
  | cons e rest ih =>
    by_cases he : e.1 = it.filename
    · have hbe : (e.1 == it.filename) = true := by simp [he]
      have hef : (e.1 == fname) = false := by simp [he, h]
      simp [groupAdd, groupFind, List.find?, hbe, hef]
    · have hbe : (e.1 == it.filename) = false := by simp [he]
      by_cases hef : e.1 = fname
      · have hb : (e.1 == fname) = true := by simp [hef]
        simp [groupAdd, groupFind, List.find?, hbe, hb]
      · have hb : (e.1 == fname) = false := by simp [hef]
        simpa [groupAdd, groupFind, List.find?, hbe, hb] using ih

theorem groupFind_foldl (rs : List SearchResult)
    (g : List (String × List SearchResult)) (fname : String) :
    groupFind (rs.foldl groupAdd g) fname
      = match rs.filter (fun r => r.filename == fname) with
        | [] => groupFind g fname
        | l => some ((groupFind g fname).getD [] ++ l) := by
  induction rs generalizing g with
  | nil => rfl
  | cons r rs ih =>
    simp only [List.foldl_cons, List.filter_cons]
    by_cases hr : r.filename = fname
    · have hb : (r.filename == fname) = true := by simp [hr]
      rw [ih (groupAdd g r)]
      have hself := groupFind_groupAdd_self g r
      rw [hr] at hself
      cases hfil : rs.filter (fun r => r.filename == fname) with
      | nil => simp [hb, hfil, hself]
      | cons x xs => simp [hb, hfil, hself]
    · have hb : (r.filename == fname) = false := by simp [hr]
      rw [ih (groupAdd g r), groupFind_groupAdd_ne g r fname hr]
      simp [hb]

theorem keys_groupAdd (g : List (String × List SearchResult)) (it : SearchResult) :
    (groupAdd g it).map Prod.fst
      = if it.filename ∈ g.map Prod.fst then g.map Prod.fst
        else g.map Prod.fst ++ [it.filename] := by
  induction g with
  | nil => simp [groupAdd]
  | cons e rest ih =>
    by_cases he : e.1 = it.filename
    · have hbe : (e.1 == it.filename) = true := by simp [he]
      simp [groupAdd, hbe, he]
    · have hbe : (e.1 == it.filename) = false := by simp [he]
      have hne : it.filename ≠ e.1 := fun hh => he hh.symm
      by_cases hmem : it.filename ∈ rest.map Prod.fst <;>
        simp [groupAdd, hbe, hmem, hne, ih]

theorem keys_foldl (rs : List SearchResult) (g : List (String × List SearchResult)) :
    (rs.foldl groupAdd g).map Prod.fst
      = dedupAcc (g.map Prod.fst) (rs.map (fun r => r.filename)) := by
  induction rs generalizing g with
  | nil => rfl
  | cons r rs ih =>
    simp only [List.foldl_cons, List.map_cons, dedupAcc]
    rw [ih (groupAdd g r), keys_groupAdd]

theorem groupFind_of_mem (g : List (String × List SearchResult))
    (fname : String) (vs : List SearchResult)
    (hn : (g.map Prod.fst).Nodup) (hm : (fname, vs) ∈ g) :
    groupFind g fname = some vs := by
  induction g with
  | nil => cases hm
  | cons e rest ih =>
    rcases List.mem_cons.mp hm with rfl | hm'
    · simp [groupFind, List.find?]
    · have hnr : (rest.map Prod.fst).Nodup := (List.nodup_cons.mp hn).2
      have hne : e.1 ≠ fname := by
        intro hh
        exact (List.nodup_cons.mp hn).1
          (hh ▸ (List.mem_map.mpr ⟨(fname, vs), hm', rfl⟩))
      have hb : (e.1 == fname) = false := by simp [hne]
      simpa [groupFind, List.find?, hb] using ih hnr hm'

theorem pyMaxBy_mem (f : SearchResult → Nat) (x : SearchResult)
    (xs : List SearchResult) : pyMaxBy f x xs ∈ x :: xs := by
  induction xs generalizing x with
  | nil => simp [pyMaxBy]
  | cons y ys ih =>
    have step : pyMaxBy f x (y :: ys) = pyMaxBy f (if f x < f y then y else x) ys := rfl
    rw [step]
    rcases List.mem_cons.mp (ih (if f x < f y then y else x)) with h | h
    · by_cases hxy : f x < f y
      · simp only [hxy, if_pos] at h ⊢
        simp [h]
      · simp only [hxy, if_neg, not_false_iff] at h ⊢
        simp [h]
    · simp [List.mem_cons_of_mem, h]

theorem pyMaxBy_ge (f : SearchResult → Nat) (x : SearchResult)
    (xs : List SearchResult) : ∀ y ∈ x :: xs, f y ≤ f (pyMaxBy f x xs) := by
  induction xs generalizing x with
  | nil =>
    intro y hy
    rcases List.mem_cons.mp hy with rfl | hy
    · simp [pyMaxBy]
    · cases hy
  | cons z zs ih =>
    intro y hy
    have step : pyMaxBy f x (z :: zs) = pyMaxBy f (if f x < f z then z else x) zs := rfl
    rw [step]
    have hx' : f x ≤ f (if f x < f z then z else x) := by
      by_cases hxz : f x < f z <;> simp [hxz, le_of_lt]
    have hz' : f z ≤ f (if f x < f z then z else x) := by
      by_cases hxz : f x < f z
      · simp [hxz]
      · simp only [hxz, if_neg, not_false_iff]
        omega
    have hhead := ih (if f x < f z then z else x)
        (if f x < f z then z else x) (List.mem_cons_self _ _)
    rcases List.mem_cons.mp hy with rfl | hy
    · exact le_trans hx' hhead
    · rcases List.mem_cons.mp hy with rfl | hy
      · exact le_trans hz' hhead
      · exact ih (if f x < f z then z else x) y (List.mem_cons_of_mem _ hy)

theorem dedupAcc_append (xs ys acc : List String) :
    dedupAcc acc (xs ++ ys) = dedupAcc (dedupAcc acc xs) ys := by
  induction xs generalizing acc with
  | nil => rfl
  | cons x xs ih =>
    simp only [List.cons_append, dedupAcc, List.append_eq]
    exact ih _

theorem dedupAcc_of_subset (ys acc : List String) (h : ∀ y ∈ ys, y ∈ acc) :
    dedupAcc acc ys = acc := by
  induction ys with
  | nil => rfl
  | cons y ys ih =>
    have hy : y ∈ acc := h y (List.mem_cons_self y ys)
    simp only [dedupAcc, hy, if_pos]
    exact ih (fun z hz => h z (List.mem_cons_of_mem _ hz))

theorem length_dedupAcc_nil (ys : List String) :
    (dedupAcc [] ys).length = ys.toFinset.card := by
  have hnd : (dedupAcc [] ys).Nodup := nodup_dedupAcc ys [] List.nodup_nil
  have hfs : (dedupAcc [] ys).toFinset = ys.toFinset := by
    ext a
    simp [List.mem_toFinset, mem_dedupAcc]
  rw [← hfs, List.toFinset_card_of_nodup hnd]

theorem drop_cons_getD (l : List String) (i : Nat) (h : i < l.length) :
    l.drop i = l.getD i "" :: l.drop (i + 1) := by
  rw [List.drop_eq_getElem_cons h]
  congr 1
  simp [List.getD_eq_getElem?_getD, List.getElem?_eq_getElem h]

theorem ringNodes_length (r : ConsistentHashRing) :
    (ringNodes r).length = r.sorted_keys.length := by
  simp [ringNodes]

theorem ringNodes_getD (r : ConsistentHashRing) (i : Nat)
    (h : i < r.sorted_keys.length) :
    (ringNodes r).getD i "" = dictGet r.ring (r.sorted_keys.getD i 0) := by
  simp [ringNodes, List.getD_eq_getElem?_getD, List.getElem?_map,
    List.getElem?_eq_getElem h]

theorem succLoop_eq_stepDedup (r : ConsistentHashRing) (count : Nat) :
    ∀ (fuel idx : Nat) (acc : List String),
      succLoop r count idx fuel acc = stepDedup count acc (nodeSeq r idx fuel) := by
  intro fuel
  induction fuel with
  | zero =>
    intro idx acc
    rfl
  | succ fuel ih =>
    intro idx acc
    by_cases h : acc.length < count
    · simp only [succLoop, nodeSeq, stepDedup, h, if_pos, ih]
    · simp only [succLoop, nodeSeq, stepDedup, h, if_neg, not_false_iff]

theorem stepDedup_eq_take (count : Nat) :
    ∀ (ys acc : List String), acc.length ≤ count →
      stepDedup count acc ys = (dedupAcc acc ys).take count := by
  intro ys
  induction ys with
  | nil =>
    intro acc hle
    exact (List.take_of_length_le hle).symm
  | cons x xs ih =>
    intro acc hle
    by_cases h : acc.length < count
    · have hlen : (if x ∈ acc then acc else acc ++ [x]).length ≤ count := by
        by_cases hx : x ∈ acc <;> simp [hx] <;> omega
      simp only [stepDedup, dedupAcc, h, if_pos]
      exact ih _ hlen
    · have heq : acc.length = count := by omega
      simp only [stepDedup, h, if_neg, not_false_iff]
      obtain ⟨t, ht⟩ := dedupAcc_extends (x :: xs) acc
      rw [← ht, ← heq, List.take_left]

theorem nodeSeq_wrapEq (r : ConsistentHashRing) (fuel : Nat) :
    nodeSeq r r.sorted_keys.length fuel = nodeSeq r 0 fuel := by
  cases fuel with
  | zero => rfl
  | succ fuel => simp [nodeSeq]

theorem nodeSeq_no_wrap (r : ConsistentHashRing) :
    ∀ (fuel idx : Nat), idx + fuel ≤ r.sorted_keys.length →
      nodeSeq r idx fuel = ((ringNodes r).drop idx).take fuel := by
  intro fuel
  induction fuel with
  | zero =>
    intro idx h
    simp [nodeSeq]
  | succ fuel ih =>
    intro idx h
    have hlt : idx < r.sorted_keys.length := by omega
    have hne : idx ≠ r.sorted_keys.length := by omega
    have hnlt : idx < (ringNodes r).length := by
      rw [ringNodes_length]
      exact hlt
    rw [drop_cons_getD _ _ hnlt, List.take_succ_cons]
    simp only [nodeSeq, hne, if_neg, not_false_iff]
    rw [ringNodes_getD r idx hlt, ih (idx + 1) (by omega)]

theorem nodeSeq_lap (r : ConsistentHashRing) (g : Nat) :
    ∀ (k idx : Nat), idx ≤ r.sorted_keys.length →
      r.sorted_keys.length - idx = k →
      nodeSeq r idx (k + g)
        = (ringNodes r).drop idx ++ nodeSeq r r.sorted_keys.length g := by
  intro k
  induction k with
  | zero =>
    intro idx hle hk
    have hidx : idx = r.sorted_keys.length := by omega
    subst hidx
    rw [List.drop_eq_nil_of_le (by rw [ringNodes_length])]
    simp
  | succ k ih =>
    intro idx hle hk
    have hlt : idx < r.sorted_keys.length := by omega
    have hne : idx ≠ r.sorted_keys.length := by omega
    have hnlt : idx < (ringNodes r).length := by
      rw [ringNodes_length]
      exact hlt
    have hstep : nodeSeq r idx (k + 1 + g)
        = dictGet r.ring (r.sorted_keys.getD idx 0) :: nodeSeq r (idx + 1) (k + g) := by
      rw [show k + 1 + g = (k + g) + 1 by omega]
      simp [nodeSeq, hne]
    rw [hstep, ih (idx + 1) (by omega) (by omega), drop_cons_getD _ _ hnlt,
      ringNodes_getD r idx hlt, List.cons_append]

theorem nodeSeq_two_laps (r : ConsistentHashRing) (idx : Nat)
    (hle : idx ≤ r.sorted_keys.length) :
    nodeSeq r idx (r.sorted_keys.length * 2)
      = (ringNodes r).drop idx ++ ringNodes r ++ (ringNodes r).take idx := by
  have h1 : r.sorted_keys.length * 2
      = (r.sorted_keys.length - idx) + (r.sorted_keys.length + idx) := by omega
  rw [h1, nodeSeq_lap r (r.sorted_keys.length + idx) _ idx hle rfl, nodeSeq_wrapEq]
  have h2 : nodeSeq r 0 (r.sorted_keys.length + idx)
      = ringNodes r ++ nodeSeq r r.sorted_keys.length idx := by
    have := nodeSeq_lap r idx r.sorted_keys.length 0 (Nat.zero_le _) (by omega)
    simpa using this
  rw [h2, nodeSeq_wrapEq,
    nodeSeq_no_wrap r idx 0 (by omega)]
  simp [List.append_assoc]

theorem dedup_rot_absorb (r : ConsistentHashRing) (j : Nat) :
    dedupAcc [] ((ringNodes r).drop j ++ ringNodes r ++ (ringNodes r).take j)
      = dedupAcc [] (rotAt r j) := by
  have hsplit : ringNodes r = (ringNodes r).take j ++ (ringNodes r).drop j :=
    (List.take_append_drop j (ringNodes r)).symm
  set A := dedupAcc [] ((ringNodes r).drop j) with hA
  have hsubA : ∀ y ∈ (ringNodes r).drop j, y ∈ A := by
    intro y hy
    rw [hA, mem_dedupAcc]
    exact Or.inr hy
  have hB : dedupAcc A (ringNodes r) = dedupAcc A ((ringNodes r).take j) := by
    conv_lhs => rw [hsplit]
    rw [dedupAcc_append]
    refine dedupAcc_of_subset _ _ (fun y hy => ?_)
    rw [mem_dedupAcc]
    exact Or.inl (hsubA y hy)
  calc dedupAcc [] ((ringNodes r).drop j ++ ringNodes r ++ (ringNodes r).take j)
      = dedupAcc (dedupAcc A (ringNodes r)) ((ringNodes r).take j) := by
        rw [dedupAcc_append, dedupAcc_append]
    _ = dedupAcc (dedupAcc A ((ringNodes r).take j)) ((ringNodes r).take j) := by
        rw [hB]
    _ = dedupAcc A ((ringNodes r).take j) := by
        refine dedupAcc_of_subset _ _ (fun y hy => ?_)
        rw [mem_dedupAcc]
        exact Or.inr hy
    _ = dedupAcc [] (rotAt r j) := by
        rw [rotAt, dedupAcc_append]

theorem getSuccessors_eq_rot (r : ConsistentHashRing) (key : String) (count : Nat)
    (hne : r.ring ≠ []) :
    r.getSuccessors key count
      = (dedupAcc [] (rotAt r (bisectWrapped r (r.hashFn key)))).take count := by
  have hbis : bisectRight r.sorted_keys (r.hashFn key) ≤ r.sorted_keys.length :=
    (List.takeWhile_prefix _).length_le
  rw [ConsistentHashRing.getSuccessors, if_neg hne,
    succLoop_eq_stepDedup, stepDedup_eq_take count _ [] (Nat.zero_le _),
    nodeSeq_two_laps r _ hbis]
  by_cases h : bisectRight r.sorted_keys (r.hashFn key) = r.sorted_keys.length
  · rw [bisectWrapped, h]
    simp only [if_pos]
    have h0 : (ringNodes r).drop r.sorted_keys.length = [] :=
      List.drop_eq_nil_of_le (by rw [ringNodes_length])
    have h1 : (ringNodes r).take r.sorted_keys.length = ringNodes r :=
      List.take_of_length_le (by rw [ringNodes_length])
    have h2 := dedup_rot_absorb r 0
    simp only [List.drop_zero, List.take_zero, List.append_nil] at h2
    rw [h0, h1]
    rw [show ([] : List String) ++ ringNodes r ++ ringNodes r
        = (ringNodes r).drop 0 ++ ringNodes r ++ (ringNodes r).take 0 by simp]
    rw [dedup_rot_absorb r 0]
  · rw [bisectWrapped]
    simp only [h, if_neg, not_false_iff]
    rw [dedup_rot_absorb r _]

theorem dictGet_map_keys (d : List (Nat × String)) (hd : (d.map Prod.fst).Nodup) :
    (d.map Prod.fst).map (fun k => dictGet d k) = d.map Prod.snd := by
  induction d with
  | nil => rfl
  | cons e rest ih =>
    rw [List.map_cons, List.nodup_cons] at hd
    obtain ⟨hhead, htail⟩ := hd
    simp only [List.map_cons]
    congr 1
    · simp [dictGet, List.find?]
    · have hcong : ∀ k ∈ rest.map Prod.fst, dictGet (e :: rest) k = dictGet rest k := by
        intro k hk
        have hne : e.1 ≠ k := fun h => hhead (h ▸ hk)
        have hb : (e.1 == k) = false := by simp [hne]
        simp [dictGet, List.find?, hb]
      rw [List.map_congr_left hcong, ih htail]

theorem splitChunksAux_flatten (fuel : Nat) (data : List Nat) (h : data.length < fuel) :
    (splitChunksAux fuel data).flatten = data := by
  induction fuel generalizing data with
  | zero => exact absurd h (Nat.not_lt_zero _)
  | succ fuel ih =>
    by_cases hd : data = []
    · simp [splitChunksAux, hd]
    · have hcs : 0 < CHUNK_SIZE := by norm_num [CHUNK_SIZE]
      have hpos : 0 < data.length := List.length_pos.mpr hd
      have hlen : (data.drop CHUNK_SIZE).length < fuel := by
        simp only [List.length_drop]
        omega
      simp [splitChunksAux, hd, ih _ hlen]

theorem splitChunksAux_length_le (fuel : Nat) (data : List Nat) :
    ∀ c ∈ splitChunksAux fuel data, c.length ≤ CHUNK_SIZE := by
  induction fuel generalizing data with
  | zero => simp [splitChunksAux]
  | succ fuel ih =>
    intro c hc
    by_cases hd : data = []
    · simp [splitChunksAux, hd] at hc
    · simp only [splitChunksAux, hd, if_neg, not_false_iff] at hc
      rcases List.mem_cons.mp hc with rfl | hc
      · simp only [List.length_take]
        exact min_le_left _ _
      · exact ih _ c hc

theorem sortByIndex_of_sorted (l : List MChunk)
    (h : List.Pairwise (fun a b => a.index < b.index) l) : sortByIndex l = l := by
  induction l with
  | nil => rfl
  | cons x xs ih =>
    have hx : ∀ b ∈ xs, x.index < b.index := (List.pairwise_cons.mp h).1
    have ht := ih (List.pairwise_cons.mp h).2
    show insertByIndex x (sortByIndex xs) = x :: xs
    rw [ht]
    cases xs with
    | nil => rfl
    | cons y ys =>
      have hxy : x.index < y.index := hx y (List.mem_cons_self y ys)
      simp [insertByIndex, hxy]

theorem mem_insertByIndex (x c : MChunk) (l : List MChunk) :
    x ∈ insertByIndex c l ↔ x = c ∨ x ∈ l := by
  induction l with
  | nil => simp [insertByIndex]
  | cons y ys ih =>
    by_cases h : c.index < y.index
    · simp [insertByIndex, h, List.mem_cons]
    · simp only [insertByIndex, h, if_neg, not_false_iff, List.mem_cons, ih]
      tauto

theorem mem_sortByIndex (x : MChunk) (l : List MChunk) :
    x ∈ sortByIndex l ↔ x ∈ l := by
  induction l with
  | nil => simp [sortByIndex]
  | cons y ys ih =>
    show x ∈ insertByIndex y (sortByIndex ys) ↔ _
    rw [mem_insertByIndex]
    simp [ih, List.mem_cons]

theorem rebuildLoop_of_chunks (sha1 : List Nat → String)
    (store : String → Option (List Nat)) (cs : List (Nat × String × List Nat))
    (h : ∀ c ∈ cs, c.2.1 = sha1 c.2.2 ∧ sha1 c.2.2 ≠ "" ∧ store (sha1 c.2.2) = some c.2.2) :
    rebuildLoop sha1 store (cs.map (fun c => ⟨c.1, c.2.1, []⟩))
      = Except.ok (cs.map (fun c => c.2.2)).flatten := by
  induction cs with
  | nil => rfl
  | cons c cs ih =>
    obtain ⟨hh, hne, hst⟩ := h c (List.mem_cons_self c cs)
    have ihh := ih (fun c hc => h c (List.mem_cons_of_mem _ hc))
    simp [rebuildLoop, hh, hne, hst, ihh, Except.map]

theorem rebuildLoop_ok_mem (sha1 : List Nat → String)
    (store : String → Option (List Nat)) (l : List MChunk) (out : List Nat)
    (h : rebuildLoop sha1 store l = Except.ok out) :
    ∀ c ∈ l, ∃ d, store c.hash = some d ∧ sha1 d = c.hash := by
  induction l generalizing out with
  | nil =>
    intro c hc
    cases hc
  | cons c0 cs ih =>
    intro c hc
    by_cases hh : c0.hash = ""
    · simp [rebuildLoop, hh] at h
    · cases hst : store c0.hash with
      | none => simp [rebuildLoop, hh, hst] at h
      | some d =>
        by_cases hmatch : sha1 d = c0.hash
        · have hrest : ∃ o, rebuildLoop sha1 store cs = Except.ok o := by
            simp only [rebuildLoop, hh, hst, hmatch, ne_eq, not_true_eq_false,
              if_neg, if_false, not_false_iff] at h
            cases hr : rebuildLoop sha1 store cs with
            | error e =>
              rw [hr] at h
              simp [Except.map] at h
            | ok o => exact ⟨o, rfl⟩
          rcases List.mem_cons.mp hc with rfl | hc'
          · exact ⟨d, hst, hmatch⟩
          · obtain ⟨o, ho⟩ := hrest
            exact ih o ho c hc'
        · simp [rebuildLoop, hh, hst, hmatch] at h

/-! # Claims -/

/-- C8: `save_index_entry` is idempotent per `(sharded_key, filename)`: on
any shard entry list, a call with an entry whose filename already appears
leaves the list unchanged, while a call with a new filename appends exactly
that one entry. -/
theorem save_index_entry_idempotent (s : List IndexEntry) (e : IndexEntry) :
    ((∃ x ∈ s, x.filename = e.filename) → save_index_entry s e = s) ∧
    ((∀ x ∈ s, x.filename ≠ e.filename) → save_index_entry s e = s ++ [e]) := by
  induction s with
  | nil =>
    refine ⟨fun h => ?_, fun _ => rfl⟩
    obtain ⟨x, hx, -⟩ := h
    cases hx
  | cons a s ih =>
    constructor
    · rintro ⟨x, hx, hfe⟩
      by_cases ha : a.filename = e.filename
      · simp [save_index_entry, ha]
      · have hxs : x ∈ s := by
          rcases List.mem_cons.mp hx with h | h
          · exact absurd (h ▸ hfe) ha
          · exact h
        simp [save_index_entry, ha, ih.1 ⟨x, hxs, hfe⟩]
    · intro h
      have ha : a.filename ≠ e.filename := h a (List.mem_cons_self a s)
      simp [save_index_entry, ha, ih.2 (fun x hx => h x (List.mem_cons_of_mem _ hx))]

/-- Witness for C8 at concrete inputs: a second entry for `a.txt` is
ignored, a first entry for `b.txt` is appended. -/
theorem save_index_entry_idempotent_witness :
    save_index_entry [ieA] ieA2 = [ieA] ∧ save_index_entry [ieA] ieB = [ieA, ieB] := by
  constructor
  · exact (save_index_entry_idempotent [ieA] ieA2).1 ⟨ieA, by simp, by decide⟩
  · simpa using (save_index_entry_idempotent [ieA] ieB).2 (by decide)

theorem matchLoop_eq_specMatches (m : Manifest) (q : List (String × String)) :
    matchLoop m q = specMatches m q := by
  induction q with
  | nil => rfl
  | cons p rest ih =>
    obtain ⟨k, v⟩ := p
    by_cases hk : k = "filename"
    · cases hcmp : (lowerStr m.filename == lowerStr v) <;>
        simp [matchLoop, specMatches, hk, hcmp, ih, List.all_cons]
    · cases hcmp : (lowerStr (metaGet m.metadata k) == lowerStr v) <;>
        simp [matchLoop, specMatches, hk, hcmp, ih, List.all_cons]

/-- Intended local-match semantics, satisfied by
`NaivePeer._search_local_storage`: the result list holds exactly one entry
per manifest satisfying every query pair, in storage order. -/
theorem search_local_storage_spec (selfId : String) (ms : List Manifest)
    (q : List (String × String)) :
    search_local_storage selfId ms q
      = (ms.filter (fun m => specMatches m q)).map (mkResult selfId) := by
  induction ms with
  | nil => rfl
  | cons m ms ih =>
    by_cases hm : specMatches m q = true <;>
      simp [search_local_storage, matchLoop_eq_specMatches, hm, ih, List.filter_cons]

/-- C2 failing input for the `/search_local` endpoint of `api.py`: with two
stored manifests both satisfying the query `genre = action`
(case-insensitively), the endpoint returns only one entry — the one for the
last listed manifest — because its `if match:` block sits outside the
manifest loop, while the intended matcher (`_search_local_storage`) returns
both; on an empty manifest list the endpoint raises `NameError`. -/
theorem search_local_api_bug :
    specMatches mMetaA [("genre", "action")] = true
    ∧ specMatches mMetaB [("genre", "action")] = true
    ∧ search_local_storage "peer1:5000" [mMetaA, mMetaB] [("genre", "action")]
        = [mkResult "peer1:5000" mMetaA, mkResult "peer1:5000" mMetaB]
    ∧ search_local_api "peer1:5000" [mMetaA, mMetaB] [("genre", "action")]
        = some [mkResult "peer1:5000" mMetaB]
    ∧ search_local_api "peer1:5000" [] [("genre", "action")] = none := by
  decide

/-- C1: the anti-entropy pass with the Semantic placement key decides
primary responsibility by a ring lookup on the routing hash — SHA-1 of
`manifest.placement_key` when present, of the filename otherwise — and,
when primary, issues every existence check with the storage hash
SHA-1(filename) towards the replicas drawn from the routing hash. -/
theorem repair_hash_discipline (sha1 : String → String) (r : ConsistentHashRing)
    (selfId : String) (ms : List Manifest) :
    repair_manifests sha1 semantic_get_placement_key r selfId ms
      = ms.flatMap (fun m =>
          if r.getNode (sha1 (m.placement_key.getD m.filename)) = some selfId then
            ((r.getSuccessors (sha1 (m.placement_key.getD m.filename)) 2).filter
                (fun rep => rep ≠ selfId)).map (fun rep => (rep, sha1 m.filename))
          else []) := by
  induction ms with
  | nil => rfl
  | cons m ms ih => simp [repair_manifests, semantic_get_placement_key, ih]

/-- C3 failing input: on a three-node ring where this peer is primary for
`f.txt`, one repair pass issues exactly one existence check — to
`peer2:5000`, the single extra node of `get_successors(hash, 2)`, whose
first element is the primary itself — although the ring has two distinct
successor nodes after the primary (`peer2:5000` and `peer3:5000`, as
`k − 1 = 2` replication demands). -/
theorem repair_checks_single_successor_cex :
    repair_manifests sha1X naive_get_placement_key ring3 "peer1:5000" [mFile]
      = [("peer2:5000", sha1X "f.txt")]
    ∧ ring3.getNode (sha1X "f.txt") = some "peer1:5000"
    ∧ (ring3.getSuccessors (sha1X "f.txt") 3).filter (fun p => p ≠ "peer1:5000")
        = ["peer2:5000", "peer3:5000"]
    ∧ distinctNodeCount ring3 = 3 := by
  decide

set_option maxRecDepth 100000 in
/-- C4 failing input: a graceful leave of peer `A` holding one semantically
placed manifest (filename `f`, placement key `g`) transfers it to `B`, the
node responsible for SHA-1 of the *filename* in the temporary ring, although
the node responsible for the manifest's placement key is `C`; the transfer
succeeds, the local copy is removed and `manifests_moved = 1` is reported. -/
theorem graceful_leave_placement_cex :
    graceful_shutdown md5Y sha1X (fun _ => true) "A" ["A", "B", "C"] [mSem]
      = { status := "completed", manifests_moved := 1,
          transfers := [("f", "B")], removed := ["f"] }
    ∧ (mkRing md5Y 100 ["B", "C"]).getNode (sha1X (semantic_get_placement_key mSem))
        = some "C"
    ∧ semantic_get_placement_key mSem = "g" := by
  decide

/-- C9: on a non-empty well-formed ring and for any key and count,
`get_successors` equals the first-occurrence deduplication of the node list
rotated to the bisect point of the key's hash (so the scan is a
deterministic forward scan with wrap-around), contains no duplicate
physical nodes, and has length `min count (number of distinct physical
nodes)`. -/
theorem get_successors_properties (r : ConsistentHashRing) (key : String)
    (count : Nat) (hwf : WFRing r) (hne : r.ring ≠ []) (hc : 1 ≤ count) :
    r.getSuccessors key count
        = (dedupAcc [] (rotAt r (bisectWrapped r (r.hashFn key)))).take count
    ∧ (r.getSuccessors key count).Nodup
    ∧ (r.getSuccessors key count).length = min count (distinctNodeCount r) := by
  have hrot := getSuccessors_eq_rot r key count hne
  have hnodup : (r.getSuccessors key count).Nodup := by
    rw [hrot]
    exact (List.take_sublist _ _).nodup (nodup_dedupAcc _ _ List.nodup_nil)
  refine ⟨hrot, hnodup, ?_⟩
  rw [hrot, List.length_take, length_dedupAcc_nil]
  congr 1
  set j := bisectWrapped r (r.hashFn key)
  have hperm : (rotAt r j).Perm (ringNodes r) := by
    rw [rotAt]
    have h1 := @List.perm_append_comm String ((ringNodes r).drop j) ((ringNodes r).take j)
    rw [List.take_append_drop j (ringNodes r)] at h1
    exact h1
  have hfs1 : (rotAt r j).toFinset = (ringNodes r).toFinset :=
    List.toFinset_eq_of_perm _ _ hperm
  obtain ⟨hsorted, hpermkeys⟩ := hwf
  have hkeysnodup : r.sorted_keys.Nodup := hsorted.nodup
  have hringkeys : (r.ring.map Prod.fst).Nodup := hpermkeys.nodup_iff.mp hkeysnodup
  have hmapperm : (ringNodes r).Perm
      ((r.ring.map Prod.fst).map (fun k => dictGet r.ring k)) :=
    hpermkeys.map _
  have hfs2 : (ringNodes r).toFinset = (r.ring.map Prod.snd).toFinset := by
    rw [List.toFinset_eq_of_perm _ _ hmapperm, dictGet_map_keys _ hringkeys]
  rw [hfs1, hfs2, distinctNodeCount]

/-- Witness for C9 on a concrete three-node ring: two successors returned,
no duplicates, length `min 2 3`. -/
theorem get_successors_properties_witness :
    ring3.getSuccessors "f.txt" 2 = ["peer1:5000", "peer2:5000"]
    ∧ (ring3.getSuccessors "f.txt" 2).Nodup
    ∧ (ring3.getSuccessors "f.txt" 2).length = min 2 (distinctNodeCount ring3) := by
  have h := get_successors_properties ring3 "f.txt" 2 ⟨by decide, by decide⟩
    (by decide) (by decide)
  exact ⟨by decide, h.2.1, h.2.2⟩

/-- C10: on a ring containing no nodes, `get_node` returns `None` and
`get_successors` returns the empty list; on a non-empty well-formed ring,
for every count at least 1, the first element of `get_successors` equals
`get_node` of the same key. -/
theorem get_node_successors_consistency (r : ConsistentHashRing) (key : String)
    (count : Nat) :
    (r.ring = [] → r.getNode key = none ∧ r.getSuccessors key count = [])
    ∧ (WFRing r → r.ring ≠ [] → 1 ≤ count →
        (r.getSuccessors key count).head? = r.getNode key) := by
  constructor
  · intro h
    constructor
    · rw [ConsistentHashRing.getNode, if_pos h]
    · rw [ConsistentHashRing.getSuccessors, if_pos h]
  · intro hwf hne hc
    have hkeysne : r.sorted_keys ≠ [] := by
      intro h0
      apply hne
      have hp := hwf.2
      rw [h0] at hp
      have h1 : r.ring.map Prod.fst = [] := hp.symm.eq_nil
      exact List.map_eq_nil_iff.mp h1
    have hn : 0 < r.sorted_keys.length := List.length_pos.mpr hkeysne
    have hble : bisectRight r.sorted_keys (r.hashFn key) ≤ r.sorted_keys.length :=
      (List.takeWhile_prefix _).length_le
    have hjlt : bisectWrapped r (r.hashFn key) < r.sorted_keys.length := by
      rw [bisectWrapped]
      by_cases hb : bisectRight r.sorted_keys (r.hashFn key) = r.sorted_keys.length
      · simpa [hb] using hn
      · simp only [hb, if_neg, not_false_iff]
        omega
    set j := bisectWrapped r (r.hashFn key) with hj
    have hjnodes : j < (ringNodes r).length := by
      rw [ringNodes_length]
      exact hjlt
    have hrot := getSuccessors_eq_rot r key count hne
    have hrothead : rotAt r j
        = (ringNodes r).getD j ""
          :: ((ringNodes r).drop (j + 1) ++ (ringNodes r).take j) := by
      rw [rotAt, drop_cons_getD _ _ hjnodes, List.cons_append]
    obtain ⟨t, ht⟩ : ∃ t, dedupAcc [] (rotAt r j) = (ringNodes r).getD j "" :: t := by
      rw [hrothead]
      have hstep : dedupAcc []
          ((ringNodes r).getD j "" :: ((ringNodes r).drop (j + 1) ++ (ringNodes r).take j))
          = dedupAcc [(ringNodes r).getD j ""]
              ((ringNodes r).drop (j + 1) ++ (ringNodes r).take j) := by
        simp [dedupAcc]
      obtain ⟨u, hu⟩ :=
        dedupAcc_extends ((ringNodes r).drop (j + 1) ++ (ringNodes r).take j)
          [(ringNodes r).getD j ""]
      refine ⟨u, ?_⟩
      rw [hstep, ← hu]
      rfl
    obtain ⟨c, hcnt⟩ : ∃ c, count = c + 1 := ⟨count - 1, by omega⟩
    rw [hrot, ht, hcnt, List.take_succ_cons, List.head?_cons,
      ConsistentHashRing.getNode, if_neg hne, ringNodes_getD r j hjlt, hj,
      bisectWrapped]

/-- Witness for C10: the empty ring answers `none` and `[]`; on the
three-node ring the head of the successor list is the responsible node. -/
theorem get_node_successors_consistency_witness :
    ring0.getNode "f.txt" = none ∧ ring0.getSuccessors "f.txt" 1 = []
    ∧ (ring3.getSuccessors "f.txt" 1).head? = ring3.getNode "f.txt" := by
  refine ⟨?_, ?_, ?_⟩
  · exact ((get_node_successors_consistency ring0 "f.txt" 1).1 rfl).1
  · exact ((get_node_successors_consistency ring0 "f.txt" 1).1 rfl).2
  · exact (get_node_successors_consistency ring3 "f.txt" 1).2 ⟨by decide, by decide⟩
      (by decide) (by decide)

/-- C7: `split_file` produces chunks with sequential indices starting at 0,
each of at most `CHUNK_SIZE` bytes and each carrying the SHA-1 of its own
bytes; `rebuild_file` over the chunk descriptors of a split, with every
listed chunk present in the store under its hash, writes the chunks in
index order and reproduces the original bytes; and `rebuild_file` of any
chunk list fails whenever some listed chunk is absent from the store or its
stored bytes hash differently from the listed hash. -/
theorem split_rebuild_roundtrip (sha1 : List Nat → String)
    (store : String → Option (List Nat)) (data : List Nat) :
    (split_file sha1 data).map (fun c => c.1) = List.range (splitChunks data).length
    ∧ (∀ c ∈ split_file sha1 data, c.2.2.length ≤ CHUNK_SIZE ∧ c.2.1 = sha1 c.2.2)
    ∧ ((∀ c ∈ split_file sha1 data, sha1 c.2.2 ≠ "" ∧ store (sha1 c.2.2) = some c.2.2) →
        rebuild_file sha1 store (chunkRecords sha1 data) = Except.ok data)
    ∧ ∀ (mcs : List MChunk) (c : MChunk), c ∈ mcs →
        (store c.hash = none ∨ ∃ d, store c.hash = some d ∧ sha1 d ≠ c.hash) →
        ∀ out, rebuild_file sha1 store mcs ≠ Except.ok out := by
  have hfst : (split_file sha1 data).map (fun c => c.1)
      = List.range (splitChunks data).length := by
    have h := List.enum_map_fst (splitChunks data)
    simp only [split_file, List.map_map, Function.comp_def]
    exact h
  refine ⟨hfst, ?_, ?_, ?_⟩
  · intro c hc
    obtain ⟨p, hp, rfl⟩ := List.mem_map.mp hc
    have hsnd : p.2 ∈ splitChunks data := by
      have h := List.enum_map_snd (splitChunks data)
      exact h ▸ List.mem_map_of_mem Prod.snd hp
    exact ⟨splitChunksAux_length_le _ _ _ hsnd, rfl⟩
  · intro hstore
    have hidx : List.Pairwise (fun a b : MChunk => a.index < b.index)
        (chunkRecords sha1 data) := by
      have hrange : (chunkRecords sha1 data).map (fun c : MChunk => c.index)
          = List.range (splitChunks data).length := by
        simpa [chunkRecords, List.map_map, Function.comp_def] using hfst
      have hpw : List.Pairwise (· < ·)
          ((chunkRecords sha1 data).map (fun c : MChunk => c.index)) := by
        rw [hrange]
        exact List.pairwise_lt_range _
      exact List.pairwise_map.mp hpw
    have hall : ∀ c ∈ split_file sha1 data,
        c.2.1 = sha1 c.2.2 ∧ sha1 c.2.2 ≠ "" ∧ store (sha1 c.2.2) = some c.2.2 := by
      intro c hc
      obtain ⟨p, hp, rfl⟩ := List.mem_map.mp hc
      exact ⟨rfl, hstore _ hc⟩
    have hloop := rebuildLoop_of_chunks sha1 store (split_file sha1 data) hall
    have hsnd : (split_file sha1 data).map (fun c => c.2.2) = splitChunks data := by
      have h := List.enum_map_snd (splitChunks data)
      simp only [split_file, List.map_map, Function.comp_def]
      exact h
    rw [rebuild_file, sortByIndex_of_sorted _ hidx, chunkRecords, hloop, hsnd]
    rw [show splitChunks data = splitChunksAux (data.length + 1) data from rfl]
    rw [splitChunksAux_flatten (data.length + 1) data (Nat.lt_succ_self _)]
  · intro mcs c hc hbad out hok
    rw [rebuild_file] at hok
    obtain ⟨d, hd, hsha⟩ :=
      rebuildLoop_ok_mem sha1 store (sortByIndex mcs) out hok c
        ((mem_sortByIndex c mcs).mpr hc)
    rcases hbad with hnone | ⟨d', hd', hne⟩
    · rw [hnone] at hd
      cases hd
    · rw [hd'] at hd
      injection hd with hdd
      exact hne (hdd ▸ hsha)

/-- Witness for C7 at a concrete file: the byte string `[1, 2, 3]` splits
into the single chunk `[1, 2, 3]` and rebuilding from a store holding that
chunk returns the original bytes. -/
theorem split_rebuild_roundtrip_witness :
    rebuild_file sha1L storeW (chunkRecords sha1L [1, 2, 3]) = Except.ok [1, 2, 3] := by
  have hchunks : splitChunks [1, 2, 3] = [[1, 2, 3]] := by
    have ht : ([1, 2, 3] : List Nat).take CHUNK_SIZE = [1, 2, 3] :=
      List.take_of_length_le (by norm_num [CHUNK_SIZE])
    have hd : ([1, 2, 3] : List Nat).drop CHUNK_SIZE = [] :=
      List.drop_eq_nil_of_le (by norm_num [CHUNK_SIZE])
    rw [show splitChunks [1, 2, 3] = splitChunksAux (3 + 1) [1, 2, 3] from rfl,
      splitChunksAux]
    simp [ht, hd, splitChunksAux]
  have hsp : split_file sha1L [1, 2, 3] = [(0, "h3", [1, 2, 3])] := by
    simp [split_file, hchunks, List.enum, sha1L]
    rfl
  refine (split_rebuild_roundtrip sha1L storeW [1, 2, 3]).2.2.1 ?_
  rw [hsp]
  intro c hc
  simp only [List.mem_singleton] at hc
  subst hc
  constructor
  · decide
  · decide

/-- C6: `_resolve_conflicts` returns exactly one result per distinct
filename occurring in the input (in first-occurrence order), and the
returned result for each filename is an input result of that filename whose
`updated_at` (`x.get("updated_at", 0)`, modelled by
`SearchResult.updated_at`) is maximal among all input results with that
filename. -/
theorem resolve_conflicts_lww (rs : List SearchResult) :
    (resolve_conflicts rs).map (fun r => r.filename)
        = dedupAcc [] (rs.map (fun r => r.filename))
    ∧ ∀ r ∈ resolve_conflicts rs,
        r ∈ rs ∧ ∀ s ∈ rs, s.filename = r.filename → s.updated_at ≤ r.updated_at := by
  have hkeys : (groupByFilename rs).map Prod.fst
      = dedupAcc [] (rs.map (fun r => r.filename)) := by
    simpa using keys_foldl rs []
  have hnodup : ((groupByFilename rs).map Prod.fst).Nodup := by
    rw [hkeys]
    exact nodup_dedupAcc _ _ List.nodup_nil
  have hgrp : ∀ p ∈ groupByFilename rs,
      p.2 = rs.filter (fun r => r.filename == p.1) ∧ p.2 ≠ [] := by
    intro p hp
    have hf : groupFind (groupByFilename rs) p.1 = some p.2 :=
      groupFind_of_mem _ p.1 p.2 hnodup (by simpa using hp)
    unfold groupByFilename at hf
    have hfold := groupFind_foldl rs [] p.1
    cases hfil : rs.filter (fun r => r.filename == p.1) with
    | nil =>
      rw [hfil] at hfold
      rw [hf] at hfold
      simp [groupFind, List.find?] at hfold
    | cons x xs =>
      rw [hfil] at hfold
      rw [hf] at hfold
      simp only [groupFind, List.find?, Option.map_none, Option.getD_none,
        List.nil_append, Option.some.injEq] at hfold
      exact ⟨hfil ▸ hfold, by simp [hfold]⟩
  have hpick : ∀ p ∈ groupByFilename rs,
      (match p.2 with
        | [] => emptyResult
        | x :: xs => pyMaxBy (fun r => r.updated_at) x xs).filename = p.1 := by
    intro p hp
    obtain ⟨hpeq, hpne⟩ := hgrp p hp
    cases h2 : p.2 with
    | nil => exact absurd h2 hpne
    | cons x xs =>
      have hmem : pyMaxBy (fun r => r.updated_at) x xs ∈ p.2 := by
        rw [h2]
        exact pyMaxBy_mem _ x xs
      have hmf : pyMaxBy (fun r => r.updated_at) x xs
          ∈ rs.filter (fun r => r.filename == p.1) := hpeq ▸ hmem
      have hfn := (List.mem_filter.mp hmf).2
      simp only [h2]
      simpa using hfn
  constructor
  · have h1 : (resolve_conflicts rs).map (fun r => r.filename)
        = (groupByFilename rs).map (fun p =>
            (match p.2 with
              | [] => emptyResult
              | x :: xs => pyMaxBy (fun r => r.updated_at) x xs).filename) := by
      simp [resolve_conflicts, List.map_map, Function.comp]
    rw [h1, List.map_congr_left hpick, hkeys]
  · intro r hr
    simp only [resolve_conflicts, List.mem_map] at hr
    obtain ⟨p, hp, hpr⟩ := hr
    obtain ⟨hpeq, hpne⟩ := hgrp p hp
    cases h2 : p.2 with
    | nil => exact absurd h2 hpne
    | cons x xs =>
      rw [h2] at hpr
      simp only at hpr
      have hmem : r ∈ p.2 := by
        rw [h2]
        exact hpr ▸ pyMaxBy_mem _ x xs
      have hrf : r ∈ rs.filter (fun q => q.filename == p.1) := hpeq ▸ hmem
      have hrin : r ∈ rs := (List.mem_filter.mp hrf).1
      have hrfn : r.filename = p.1 := by simpa using (List.mem_filter.mp hrf).2
      refine ⟨hrin, fun s hs hsf => ?_⟩
      have hsfil : s ∈ rs.filter (fun q => q.filename == p.1) :=
        List.mem_filter.mpr ⟨hs, by simp [hsf, hrfn]⟩
      have hsmem : s ∈ p.2 := by
        rw [hpeq]
        exact hsfil
      rw [h2] at hsmem
      have hle := pyMaxBy_ge (fun q => q.updated_at) x xs s hsmem
      exact hpr ▸ hle

/-- C5 counterexample: saving a manifest for `f.txt` with `updated_at = 5`
and then one with `updated_at = 3` leaves the node storing the value `3`,
so the stored `updated_at` for a filename is not monotonically
non-decreasing. -/
theorem updated_at_monotonic_cex :
    storeGet (save_manifest sha1X (save_manifest sha1X [] mFile) mFileOld)
        (sha1X "f.txt") = some mFileOld
    ∧ storeGet (save_manifest sha1X [] mFile) (sha1X "f.txt") = some mFile
    ∧ mFileOld.updated_at = some 3 ∧ mFile.updated_at = some 5 := by
  decide

/-- C5 (amended): `save_manifest` (and hence the `/store_manifest`
operation, which calls it unconditionally) implements last-write-wins per
storage key: after any sequence of saves, the stored manifest under a key
is the last saved manifest whose filename hashes to that key, with no
comparison of `updated_at`. -/
theorem save_manifest_last_write (sha1 : String → String)
    (store : List (String × Manifest)) (ms : List Manifest) (k : String) :
    storeGet (ms.foldl (save_manifest sha1) store) k
      = match (ms.filter (fun m => sha1 m.filename == k)).getLast? with
        | some m => some m
        | none => storeGet store k := by
  induction ms generalizing store with
  | nil => rfl
  | cons m ms ih =>
    simp only [List.foldl_cons, List.filter_cons]
    rw [ih]
    by_cases h : sha1 m.filename == k
    · have hk : k = sha1 m.filename := by simpa [beq_iff_eq] using (beq_iff_eq.mp h).symm
      simp only [h, if_pos, getLast?_cons_eq]
      cases hl : (ms.filter (fun m => sha1 m.filename == k)).getLast? with
      | some m' => simp [hl]
      | none => simp [hl, save_manifest, storeGet_storeSet, hk]
    · have hk : k ≠ sha1 m.filename := by
        intro hkk
        exact h (by simpa [beq_iff_eq] using hkk.symm)
      cases hl : (ms.filter (fun m => sha1 m.filename == k)).getLast? with
      | some m' => simp [h, hl]
      | none => simp [h, hl, save_manifest, storeGet_storeSet, hk]

end ERT
